import Mathlib

/-!
Verification development for `generate_delegates.py`, a code generator that
extracts method signatures from rustdoc-style data, computes catalog set
algebra between signed/unsigned integer types, renders trait declarations or
forwarding implementations, and splices the rendered text into marked regions
of a target file, committing the result via a temporary file.

Text is modelled as Lean `String`s (files as lists of lines, without their
trailing newline).  Fallible Python operations (`assert`, `KeyError`,
regex-match assertions) are modelled with `Option`: `none` is a fatal abort.
-/

/-! ## String utilities mirroring the Python string operations -/

/-- Whitespace test matching the characters the Python regex
class recognises in the inputs handled here. -/
def isSpaceCh (c : Char) : Bool :=
  c == ' ' || c == '\t' || c == '\n' || c == '\r' || c == '\x0b' || c == '\x0c'

/-- Substring search on character lists: `isInfixCh pat l` is true iff `pat`
occurs contiguously in `l` (the Python `pat in l` test). -/
def isInfixCh (pat : List Char) : List Char → Bool
  | [] => pat.isEmpty
  | c :: t => pat.isPrefixOf (c :: t) || isInfixCh pat t

/-- The Python `pat in s` test on strings. -/
def hasSub (s pat : String) : Bool :=
  isInfixCh pat.data s.data

/-- The Python `s.startswith(pat)` test. -/
def strStartsWith (s pat : String) : Bool :=
  pat.data.isPrefixOf s.data

/-- Worker for `pyReplace` with a nonempty pattern.  The fuel argument makes
the recursion structural; `fuel = s.length` always suffices because each step
consumes at least one character of `s`. -/
def pyReplaceF (pat rep : List Char) : Nat → List Char → List Char
  | _, [] => []
  | 0, s => s
  | fuel + 1, c :: t =>
    if pat.isPrefixOf (c :: t) then
      rep ++ pyReplaceF pat rep fuel ((c :: t).drop pat.length)
    else
      c :: pyReplaceF pat rep fuel t

/-- The Python `s.replace(pat, rep)` operation on character lists: replaces all
non-overlapping occurrences left to right; an empty pattern interleaves the
replacement between all characters. -/
def pyReplace (s pat rep : List Char) : List Char :=
  match pat with
  | [] => rep ++ s.flatMap (fun c => c :: rep)
  | _ :: _ => pyReplaceF pat rep s.length s

/-- The Python `s.replace(pat, rep)` operation on strings. -/
def strReplace (s pat rep : String) : String :=
  String.mk (pyReplace s.data pat.data rep.data)

/-- The Python `sep.join(parts)` operation. -/
def joinSep (sep : String) : List String → String
  | [] => ""
  | [x] => x
  | x :: y :: rest => x ++ sep ++ joinSep sep (y :: rest)

/-! ## Data model: `FunctionSpec` and `Trait` (from the source dataclasses) -/

/-- The `FunctionSpec` dataclass.  `isUnsafe` models the source field
recording whether the declaration carries the unchecked-precondition
marker. -/
structure FunctionSpec where
  must_use_reason : Option String
  isUnsafe : Bool
  name : String
  definition : String
  call : String
deriving DecidableEq, Repr

/-- The `Trait` dataclass: an example implementor type name, a core catalog,
a std catalog, an exclusion set (modelled as a list, used only through
membership) and an ordered substitution table (Python dicts iterate in
insertion order). -/
structure Trait where
  example_implementor : String
  core_fns : List FunctionSpec
  std_fns : List FunctionSpec
  ignores : List String
  replacements : List (String × String)
deriving DecidableEq, Repr

/-! ## Catalog set algebra (`int_core` / `signed_core` / `unsigned_core`) -/

/-- The method names of a catalog, in order. -/
def names (c : List FunctionSpec) : List String :=
  c.map FunctionSpec.name

/-- `int_core = [s for s in i32_core if s.name in u32_fns]`. -/
def int_core (i32_core u32_core : List FunctionSpec) : List FunctionSpec :=
  i32_core.filter (fun s => (names u32_core).contains s.name)

/-- `signed_core = [s for s in i32_core if s.name not in u32_fns]`. -/
def signed_core (i32_core u32_core : List FunctionSpec) : List FunctionSpec :=
  i32_core.filter (fun s => !(names u32_core).contains s.name)

/-- `unsigned_core = [s for s in u32_core if s.name not in i32_fns]`. -/
def unsigned_core (i32_core u32_core : List FunctionSpec) : List FunctionSpec :=
  u32_core.filter (fun s => !(names i32_core).contains s.name)

/-- The set of method names of a catalog. -/
def nameSet (c : List FunctionSpec) : Set String :=
  setOf (fun n => n ∈ names c)

/-! ## Type-tree model and renderer (`stringify_type` and friends)

The Python source dispatches on the single key of an untyped dict.  Each
recognised tag is a constructor; `unknownTag` stands for any dict whose tag is
not one of the recognised ones (its `assert False` branch). -/

mutual

inductive Typ where
  | primitive (s : String)
  | generic (s : String)
  | slice (t : Typ)
  | array (t : Typ) (len : String)
  | borrowed_ref (lifetime : Option String) (is_mut : Bool) (t : Typ)
  | tuple (ts : TypList)
  | resolved_path (path : String) (args : OptArgs)
  | unknownTag (tag : String)
deriving DecidableEq

inductive TypList where
  | nil
  | cons (t : Typ) (ts : TypList)
deriving DecidableEq

inductive OptArgs where
  | noArgs
  | someArgs (node : ArgsNode)
deriving DecidableEq

inductive ArgsNode where
  | angle_bracketed (args : GArgList) (constraints : List String)
  | otherNode (tag : String)
deriving DecidableEq

inductive GArgList where
  | gnil
  | gcons (g : GArg) (gs : GArgList)
deriving DecidableEq

inductive GArg where
  | type (t : Typ)
  | otherArg (tag : String)
deriving DecidableEq

end

mutual

/-- `stringify_type` from the source; `none` models `assert False` (an
unrecognised tag) or the `assert inner["lifetime"] is None` failure. -/
def stringify_type : Typ → Option String
  | .primitive s => some s
  | .generic s => some s
  | .slice t =>
    match stringify_type t with
    | none => none
    | some s => some ("[" ++ s ++ "]")
  | .array t len =>
    match stringify_type t with
    | none => none
    | some s => some ("[" ++ s ++ "; " ++ len ++ "]")
  | .borrowed_ref lifetime is_mut t =>
    match lifetime with
    | some _ => none
    | none =>
      match stringify_type t with
      | none => none
      | some s => some ("&" ++ (if is_mut then "mut " else "") ++ s)
  | .tuple ts =>
    match stringify_types ts with
    | none => none
    | some ss => some ("(" ++ joinSep ", " ss ++ ")")
  | .resolved_path path args =>
    if path = "crate::cmp::Ordering" then some "Ordering"
    else
      match args with
      | .noArgs => some path
      | .someArgs node =>
        match node with
        | .otherNode _ => none
        | .angle_bracketed gargs constraints =>
          match constraints with
          | _ :: _ => none
          | [] =>
            match stringify_gargs gargs with
            | none => none
            | some ss => some (path ++ "<" ++ joinSep ", " ss ++ ">")
  | .unknownTag _ => none

def stringify_types : TypList → Option (List String)
  | .nil => some []
  | .cons t ts =>
    match stringify_type t, stringify_types ts with
    | some s, some ss => some (s :: ss)
    | _, _ => none

/-- `stringify_generic`: only `type`-tagged generic arguments are accepted. -/
def stringify_generic : GArg → Option String
  | .type t => stringify_type t
  | .otherArg _ => none

def stringify_gargs : GArgList → Option (List String)
  | .gnil => some []
  | .gcons g gs =>
    match stringify_generic g, stringify_gargs gs with
    | some s, some ss => some (s :: ss)
    | _, _ => none

end

/-- `stringify_arg` from the source: a self parameter must render as `Self`
or `&Self`; anything else is `assert False` (`none`). -/
def stringify_arg (name : String) (typ_s : String) : Option String :=
  if name = "self" then
    if typ_s = "Self" then some "self"
    else if typ_s = "&Self" then some "&self"
    else none
  else some (name ++ ": " ++ typ_s)

/-! ## Structured-document adapter (`parse_fn`) -/

/-- The `inner` tagged payload of an item: either a function declaration or
some other item kind (whose payload is irrelevant: `parse_fn` skips it). -/
structure Generics where
  params : List String
  where_predicates : List String
deriving DecidableEq, Repr

structure Header where
  isUnsafe : Bool
deriving DecidableEq, Repr

structure Sig where
  inputs : List (String × Typ)
  output : Typ
deriving DecidableEq

structure FnDecl where
  generics : Generics
  header : Header
  sig : Sig
deriving DecidableEq

inductive ItemInner where
  | function (f : FnDecl)
  | otherInner (tag : String)
deriving DecidableEq

/-- One attribute: a must-use attribute carries its single key (expected to
be `reason`) and its possibly-null reason; `otherAttr` carries the raw
attribute string; `unknownAttr` stands for any other tag (the
`assert False` branch of the loop). -/
inductive Attr where
  | must_use (key : String) (reason : Option String)
  | otherAttr (s : String)
  | unknownAttr (tag : String)
deriving DecidableEq

structure Item where
  inner : ItemInner
  deprecation : Option String
  attrs : List Attr
  name : String
deriving DecidableEq

/-- Result of the attribute scan in `parse_fn`. -/
inductive ScanRes where
  | skip
  | done (mu : Option String)
deriving DecidableEq, Repr

/-- The attribute loop of `parse_fn`: accumulates the must-use reason,
aborts (`none`) on a malformed must-use payload, a duplicate must-use with a
reason already recorded, or an unrecognised attribute tag; returns `skip`
when an unstable / current-stability attribute is found. -/
def scanAttrs : List Attr → Option String → Option ScanRes
  | [], acc => some (.done acc)
  | .must_use key r :: rest, acc =>
    if key = "reason" then
      if acc.isSome then none else scanAttrs rest r
    else none
  | .otherAttr s :: rest, acc =>
    if strStartsWith s "#[attr = Stability" then
      if hasSub s "Unstable" || hasSub s "since: Current" then some .skip
      else scanAttrs rest acc
    else scanAttrs rest acc
  | .unknownAttr _ :: _, _ => none

/-- The parameter loop of `parse_fn`: stringifies each parameter type and
renders each argument, collecting rendered arguments and bare names. -/
def processInputs : List (String × Typ) → Option (List String × List String)
  | [] => some ([], [])
  | (n, ty) :: rest =>
    match stringify_type ty with
    | none => none
    | some ty_s =>
      match stringify_arg n ty_s with
      | none => none
      | some a =>
        match processInputs rest with
        | none => none
        | some (as_, ns) => some (a :: as_, n :: ns)

/-- `parse_fn` from the source.  `none` models an `assert` failure (fatal
abort); `some none` models `return None` (the item is skipped); `some (some
fs)` is a successfully extracted `FunctionSpec`. -/
def parse_fn (d : Item) : Option (Option FunctionSpec) :=
  match d.inner with
  | .otherInner _ => some none
  | .function spec =>
    if spec.generics.params ≠ [] ∨ spec.generics.where_predicates ≠ [] then some none
    else if d.deprecation.isSome then some none
    else
      match scanAttrs d.attrs none with
      | none => none
      | some .skip => some none
      | some (.done must_use_reason) =>
        match processInputs spec.sig.inputs with
        | none => none
        | some (args, arg_names) =>
          match stringify_type spec.sig.output with
          | none => none
          | some out_s =>
            let definition :=
              (if spec.header.isUnsafe then "unsafe " else "")
                ++ "fn " ++ d.name ++ "(" ++ joinSep ", " args ++ ")"
                ++ " -> " ++ out_s
            let call := d.name ++ "(" ++ joinSep ", " arg_names ++ ")"
            some (some ⟨must_use_reason, spec.header.isUnsafe, d.name, definition, call⟩)

/-- The collection loop of `parse_specs` over the items of one impl block:
appends each successfully parsed function, skips `some none`, propagates a
fatal abort. -/
def collectFns : List Item → Option (List FunctionSpec)
  | [] => some []
  | d :: ds =>
    match parse_fn d with
    | none => none
    | some none => collectFns ds
    | some (some f) =>
      match collectFns ds with
      | none => none
      | some fs => some (f :: fs)

/-! ## Trait registry (the `TRAITS` table)

The catalogs themselves are external inputs (parsed from rustdoc JSON at run
time), so the registry is parametrised by them; the exclusion sets and
substitution tables are the literal configuration from the source. -/

def floatIgnores : List String :=
  ["to_be_bytes", "to_le_bytes", "to_ne_bytes",
   "from_be_bytes", "from_le_bytes", "from_ne_bytes",
   "abs", "signum", "div_euclid", "rem_euclid"]

def floatReplacements : List (String × String) :=
  [("u32", "Self::Bits"), ("[u8; 4]", "Self::Bytes")]

def integerIgnores : List String :=
  ["to_be_bytes", "to_le_bytes", "to_ne_bytes",
   "from_be_bytes", "from_le_bytes", "from_ne_bytes",
   "abs", "signum", "div_euclid", "rem_euclid"]

def integerReplacements : List (String × String) :=
  [("abs_diff(self, other: Self) -> u32",
    "abs_diff(self, other: Self) -> Self::Unsigned")]

def signedReplacements : List (String × String) :=
  [("_unsigned(self) -> u32", "_unsigned(self) -> Self::Unsigned"),
   ("_unsigned(self, rhs: u32)", "_unsigned(self, rhs: Self::Unsigned)"),
   ("unsigned_abs(self) -> u32", "unsigned_abs(self) -> Self::Unsigned")]

def unsignedReplacements : List (String × String) :=
  [("_signed(self, rhs: i32)", "_signed(self, rhs: Self::Signed)"),
   ("_signed(self) -> i32", "_signed(self) -> Self::Signed"),
   ("_signed_diff(self, rhs: Self) -> Option<i32>",
    "_signed_diff(self, rhs: Self) -> Option<Self::Signed>")]

def FLOATtrait (f32_core f32_std : List FunctionSpec) : Trait :=
  ⟨"f32", f32_core, f32_std, floatIgnores, floatReplacements⟩

def INTEGERtrait (i32_core u32_core : List FunctionSpec) : Trait :=
  ⟨"i32", int_core i32_core u32_core, [], integerIgnores, integerReplacements⟩

def SIGNEDtrait (i32_core u32_core : List FunctionSpec) : Trait :=
  ⟨"i32", signed_core i32_core u32_core, [], [], signedReplacements⟩

def UNSIGNEDtrait (i32_core u32_core : List FunctionSpec) : Trait :=
  ⟨"u32", unsigned_core i32_core u32_core, [], [], unsignedReplacements⟩

/-- The `TRAITS` dict as a lookup function; `none` models a `KeyError`. -/
def TRAITS (i32_core u32_core f32_core f32_std : List FunctionSpec) :
    String → Option Trait :=
  fun n =>
    if n = "FLOAT" then some (FLOATtrait f32_core f32_std)
    else if n = "INTEGER" then some (INTEGERtrait i32_core u32_core)
    else if n = "SIGNED" then some (SIGNEDtrait i32_core u32_core)
    else if n = "UNSIGNED" then some (UNSIGNEDtrait i32_core u32_core)
    else none

/-! ## Declaration renderer (`print_decl`)

Output is modelled as the list of lines written to the destination (each
line implicitly newline-terminated). -/

/-- The self-substitution followed by the substitution table of the trait, exactly
as applied to `fn.definition` and `fn.call` in `print_decl`. -/
def substitute (t : Trait) (s : String) : String :=
  t.replacements.foldl (fun acc kv => strReplace acc kv.1 kv.2)
    (strReplace s t.example_implementor "Self")

/-- The documentation / declaration block `print_decl` writes for one
function (empty when the name is excluded).  `isStd` selects the
feature-gate line; `impl` selects forwarding-implementation mode. -/
def renderFn (indent : String) (t : Trait) (isStd : Bool) (impl : Bool)
    (fn : FunctionSpec) : List String :=
  if t.ignores.contains fn.name then []
  else
    let definition := substitute t fn.definition
    let call := substitute t fn.call
    let cfgLines := if isStd then [indent ++ "#[cfg(feature = \"std\")]"] else []
    if impl then
      cfgLines
        ++ [indent ++ definition ++ " \x7b",
            indent ++ "    Self::" ++ call,
            indent ++ "\x7d",
            ""]
    else
      let ref := "[`" ++ t.example_implementor ++ "::" ++ fn.name ++ "`]"
      let docs :=
        [indent ++ "/// See " ++ ref ++ "."]
          ++ (if fn.isUnsafe then
                [indent ++ "///",
                 indent ++ "/// # Safety",
                 indent ++ "///",
                 indent ++ "/// See " ++ ref ++ "."]
              else [])
      let mu :=
        match fn.must_use_reason with
        | some r => [indent ++ "#[must_use = \"" ++ r ++ "\"]"]
        | none => []
      docs ++ cfgLines ++ mu ++ [indent ++ definition ++ ";", ""]

/-- `print_decl` from the source: the generated-by header, a blank line, the
core catalog, then the std catalog with core-name duplicates removed. -/
def printDecl (indent : String) (t : Trait) (impl : Bool) : List String :=
  let coreNames := names t.core_fns
  let stdFns := t.std_fns.filter (fun s => !coreNames.contains s.name)
  [indent ++ "// Generated by generate_delegates.py", ""]
    ++ t.core_fns.flatMap (renderFn indent t false impl)
    ++ stdFns.flatMap (renderFn indent t true impl)

/-! ## Template splicer

`START_RE = ^(?P<indent>\s*)// @START@ (?P<type>\S+) (?P<name>\S+)`, matched
with `search` (hence anchored at the start of the line). -/

/-- Parse a start-marker line: captured indent, mode tag and grouping name;
`none` when the anchored pattern does not match. -/
def parseStart (l : String) : Option (String × String × String) :=
  let cs := l.data
  let indent := cs.takeWhile isSpaceCh
  let r := cs.dropWhile isSpaceCh
  let marker := "// @START@ ".data
  if marker.isPrefixOf r then
    let r1 := r.drop marker.length
    let ty := r1.takeWhile (fun c => !isSpaceCh c)
    let r2 := r1.dropWhile (fun c => !isSpaceCh c)
    if ty.isEmpty then none
    else
      match r2 with
      | ' ' :: r3 =>
        let nm := r3.takeWhile (fun c => !isSpaceCh c)
        if nm.isEmpty then none
        else some (String.mk indent, String.mk ty, String.mk nm)
      | _ => none
  else none

/-- One iteration of the splice loop on line `l` in copy-state `copy`:
returns the lines appended to the temporary output and the next copy-state,
or `none` on a fatal abort (unparsable start marker or unknown grouping). -/
def spliceStep (reg : String → Option Trait) (l : String) (copy : Bool) :
    Option (List String × Bool) :=
  let out0 := if copy then [l] else []
  let afterStart : Option (List String × Bool) :=
    if hasSub l "@START@" then
      match parseStart l with
      | none => none
      | some (indent, ty, nm) =>
        match reg nm with
        | none => none
        | some t => some (out0 ++ printDecl indent t (ty == "IMPL"), false)
    else some (out0, copy)
  match afterStart with
  | none => none
  | some (out1, c1) =>
    if hasSub l "@END@" then some (out1 ++ [l], true) else some (out1, c1)

/-- The splice loop over a list of input lines, threading the copy-state;
returns the accumulated output lines and the final copy-state. -/
def spliceAuxSt (reg : String → Option Trait) :
    List String → Bool → Option (List String × Bool)
  | [], c => some ([], c)
  | l :: ls, c =>
    match spliceStep reg l c with
    | none => none
    | some (o, c1) =>
      match spliceAuxSt reg ls c1 with
      | none => none
      | some (o2, c2) => some (o ++ o2, c2)

/-- The full splice of a target file (as lines): the contents of the
temporary file when the loop completes, `none` on a fatal abort. -/
def splice (reg : String → Option Trait) (input : List String) :
    Option (List String) :=
  (spliceAuxSt reg input true).map Prod.fst

/-! ## Run trace: temporary file vs. target file

The script writes all output to a `NamedTemporaryFile` and moves it over the
target only after the whole input has been processed.  `spliceRun` is the
trace of observable filesystem states: one state per processed input line
(target untouched, temporary file holding the output so far — `none` once the run
has aborted and the temporary file is discarded), then, when the loop
completes, the single commit state in which the rename replaces the target. -/

structure FS where
  target : List String
  temp : Option (List String)
deriving DecidableEq, Repr

/-- Contents of the temporary file after the first `k` input lines have been
processed (`none` if the run aborted within those lines). -/
def tempAfter (reg : String → Option Trait) (input : List String) (k : Nat) :
    Option (List String) :=
  (spliceAuxSt reg (input.take k) true).map Prod.fst

/-- The filesystem-state trace of one run. -/
def spliceRun (reg : String → Option Trait) (input : List String) : List FS :=
  ((List.range (input.length + 1)).map
      (fun k => FS.mk input (tempAfter reg input k)))
    ++ (match spliceAuxSt reg input true with
        | some oc => [FS.mk oc.1 (some oc.1)]
        | none => [])

/-! ## Marker-freedom and cleanliness predicates -/

/-- A line containing neither marker token; such lines are copied verbatim
by the splice loop without changing its state. -/
def noMarkers (l : String) : Prop :=
  hasSub l "@START@" = false ∧ hasSub l "@END@" = false

instance (l : String) : Decidable (noMarkers l) := by
  unfold noMarkers; infer_instance

/-- No `@` character occurs in the string.  Both marker tokens contain `@`,
so a rendered line built solely from `@`-free pieces contains no marker. -/
def noAt (s : String) : Bool :=
  s.data.all (fun c => c != '@')

/-- All text fields of a `FunctionSpec` are `@`-free. -/
def cleanFn (f : FunctionSpec) : Bool :=
  noAt f.name && noAt f.definition && noAt f.call &&
    (match f.must_use_reason with
     | none => true
     | some r => noAt r)

/-- All text the renderer can copy out of a `Trait` is `@`-free. -/
def cleanTrait (t : Trait) : Bool :=
  noAt t.example_implementor && t.core_fns.all cleanFn && t.std_fns.all cleanFn
    && t.replacements.all (fun kv => noAt kv.2)

/-! ## Block structure of a well-formed target file

A target file is an interleaving of plain lines and marked regions; this is
the shape the splicer is specified against (§4.7 of the spec). -/

inductive Block where
  | plain (l : String)
  | region (startL : String) (stale : List String) (endL : String)

/-- The lines of a block. -/
def Block.flatten : Block → List String
  | .plain l => [l]
  | .region s st e => s :: (st ++ [e])

/-- The lines of a block-structured file. -/
def flattenBlocks (bs : List Block) : List String :=
  bs.flatMap Block.flatten

/-- Well-formedness of one block w.r.t. a registry: plain lines carry no
marker; the start line of a region parses, resolves in the registry, renders to
marker-free text, and carries no end marker; stale lines carry no marker;
the end line carries the end marker and no start marker. -/
def BlockOK (reg : String → Option Trait) : Block → Prop
  | .plain l => noMarkers l
  | .region s st e =>
    hasSub s "@START@" = true ∧ hasSub s "@END@" = false
      ∧ (∃ ind ty nm t, parseStart s = some (ind, ty, nm) ∧ reg nm = some t
          ∧ ∀ l ∈ printDecl ind t (ty == "IMPL"), noMarkers l)
      ∧ (∀ l ∈ st, noMarkers l)
      ∧ hasSub e "@END@" = true ∧ hasSub e "@START@" = false

/-- The output lines the splicer produces for one block. -/
def blockOut (reg : String → Option Trait) : Block → List String
  | .plain l => [l]
  | .region s _ e =>
    match parseStart s with
    | some (ind, ty, nm) =>
      match reg nm with
      | some t => s :: (printDecl ind t (ty == "IMPL") ++ [e])
      | none => []
    | none => []

/-- The block a region becomes after one splice: stale text replaced by the
freshly rendered block. -/
def freshBlock (reg : String → Option Trait) : Block → Block
  | .plain l => .plain l
  | .region s _ e =>
    match parseStart s with
    | some (ind, ty, nm) =>
      match reg nm with
      | some t => .region s (printDecl ind t (ty == "IMPL")) e
      | none => .plain s
    | none => .plain s

/-! ## Concrete scenario data -/

/-- A plausible extracted record for `f32::floor` (a std-catalog method of
the FLOAT grouping). -/
def floorSpec : FunctionSpec :=
  ⟨none, false, "floor", "fn floor(self) -> f32", "floor(self)"⟩

/-- A record named `min_value`, as in Scenario C. -/
def minValueSpec : FunctionSpec :=
  ⟨none, false, "min_value", "fn min_value() -> i32", "min_value()"⟩

/-- The Scenario C grouping: INTEGER-style configuration whose exclusion set
contains `min_value` and `max_value` and whose core catalog contains a
`min_value` record. -/
def scenCTrait : Trait :=
  ⟨"i32", [minValueSpec], [], ["min_value", "max_value"], []⟩

/-- Replace the core catalog of a trait, keeping every other field. -/
def withCore (t : Trait) (c : List FunctionSpec) : Trait :=
  ⟨t.example_implementor, c, t.std_fns, t.ignores, t.replacements⟩

/-- The Scenario B item: `unsafe fn to_int_unchecked<Int>(self) -> Int`, which
declares one generic parameter. -/
def scenarioBItem : Item :=
  ⟨.function ⟨⟨["Int"], []⟩, ⟨true⟩, ⟨[("self", .generic "Self")], .generic "Int"⟩⟩,
   none, [], "to_int_unchecked"⟩

/-- An item carrying two must-use attributes with reasons: the second one
trips the `assert must_use_reason is None`. -/
def dupMustUseItem : Item :=
  ⟨.function ⟨⟨[], []⟩, ⟨false⟩, ⟨[], .primitive "i32"⟩⟩,
   none, [.must_use "reason" (some "r1"), .must_use "reason" (some "r2")], "m"⟩

/-- A small concrete registry for witnesses: the real `TRAITS` table with a
one-method FLOAT std catalog and empty integer catalogs. -/
def wReg : String → Option Trait :=
  TRAITS [] [] [] [floorSpec]

/-- A concrete block-structured target file for witnesses. -/
def wBlocks : List Block :=
  [.plain "a", .region "// @START@ IMPL FLOAT" ["old"] "// @END@", .plain "b"]

/-- The same target file as flat lines. -/
def wInput : List String :=
  ["a", "// @START@ IMPL FLOAT", "old", "// @END@", "b"]

def minValueSpecAlt : FunctionSpec :=
  ⟨some "use it", true, "min_value", "fn min_value() -> Self", "min_value()"⟩

/-- Replace the std catalog of a trait, keeping every other field. -/
def withStd (t : Trait) (c : List FunctionSpec) : Trait :=
  ⟨t.example_implementor, t.core_fns, c, t.ignores, t.replacements⟩

/-- A plausible extracted record for `f32::div_euclid`, a method whose name
is in the FLOAT exclusion set and which lives in the std catalog. -/
def divEuclidSpec : FunctionSpec :=
  ⟨none, false, "div_euclid", "fn div_euclid(self, rhs: f32) -> f32",
   "div_euclid(self, rhs)"⟩

/-- The example type name is a nonempty alphanumeric identifier containing a
digit (true of `f32`, `i32`, `u32`): such a name cannot occur inside the
renderer boilerplate and cannot straddle a boundary with whitespace or
punctuation. -/
def exNameOK (t : Trait) : Bool :=
  !t.example_implementor.data.isEmpty
    && t.example_implementor.data.all Char.isAlphanum
    && t.example_implementor.data.any Char.isDigit

/-- Every catalog entry of the trait has substituted definition and call
text free of the example type name, and any must-use reason avoids it as
well.  This is the post-condition of the substitution step on the real
catalogs. -/
def substCleanB (t : Trait) : Bool :=
  (t.core_fns ++ t.std_fns).all (fun fn =>
    !hasSub (substitute t fn.definition) t.example_implementor
      && !hasSub (substitute t fn.call) t.example_implementor
      && (match fn.must_use_reason with
          | none => true
          | some r => !hasSub r t.example_implementor))

/-! ## Lemmas and claim theorems -/

lemma mem_nameSet (c : List FunctionSpec) (n : String) :
    n ∈ nameSet c ↔ ∃ s ∈ c, s.name = n := by
  simp [nameSet, names]

lemma mem_nameSet_int_core (i u : List FunctionSpec) (n : String) :
    n ∈ nameSet (int_core i u) ↔ n ∈ nameSet i ∧ n ∈ nameSet u := by
  simp only [nameSet, names, int_core, Set.mem_setOf_eq, List.mem_map,
    List.mem_filter, List.contains, List.elem_eq_mem, decide_eq_true_eq]
  constructor
  · rintro ⟨s, ⟨hs, hu⟩, rfl⟩
    exact ⟨⟨s, hs, rfl⟩, hu⟩
  · rintro ⟨⟨s, hs, rfl⟩, hu⟩
    exact ⟨s, ⟨hs, hu⟩, rfl⟩

lemma mem_nameSet_signed_core (i u : List FunctionSpec) (n : String) :
    n ∈ nameSet (signed_core i u) ↔ n ∈ nameSet i ∧ n ∉ nameSet u := by
  simp only [nameSet, names, signed_core, Set.mem_setOf_eq, List.mem_map,
    List.mem_filter, List.contains, List.elem_eq_mem, Bool.not_eq_true',
    decide_eq_false_iff_not]
  constructor
  · rintro ⟨s, ⟨hs, hu⟩, rfl⟩
    exact ⟨⟨s, hs, rfl⟩, hu⟩
  · rintro ⟨⟨s, hs, rfl⟩, hu⟩
    exact ⟨s, ⟨hs, hu⟩, rfl⟩

lemma mem_nameSet_unsigned_core (i u : List FunctionSpec) (n : String) :
    n ∈ nameSet (unsigned_core i u) ↔ n ∈ nameSet u ∧ n ∉ nameSet i := by
  simp only [nameSet, names, unsigned_core, Set.mem_setOf_eq, List.mem_map,
    List.mem_filter, List.contains, List.elem_eq_mem, Bool.not_eq_true',
    decide_eq_false_iff_not]
  constructor
  · rintro ⟨s, ⟨hs, hu⟩, rfl⟩
    exact ⟨⟨s, hs, rfl⟩, hu⟩
  · rintro ⟨⟨s, hs, rfl⟩, hu⟩
    exact ⟨s, ⟨hs, hu⟩, rfl⟩

/-- C3: a method name is in the shared catalog iff it is in both the signed
and the unsigned input catalogs; the three derived catalogs are pairwise
disjoint by name; and the union of their name sets equals the union of the
name sets of the two input catalogs. -/
theorem catalog_algebra_partition (i u : List FunctionSpec) :
    nameSet (int_core i u) = nameSet i ∩ nameSet u
    ∧ nameSet (int_core i u) ∩ nameSet (signed_core i u) = ∅
    ∧ nameSet (int_core i u) ∩ nameSet (unsigned_core i u) = ∅
    ∧ nameSet (signed_core i u) ∩ nameSet (unsigned_core i u) = ∅
    ∧ nameSet (int_core i u) ∪ nameSet (signed_core i u) ∪ nameSet (unsigned_core i u)
        = nameSet i ∪ nameSet u := by
  refine ⟨?_, ?_, ?_, ?_, ?_⟩ <;> ext n <;>
    simp only [Set.mem_inter_iff, Set.mem_union, Set.mem_empty_iff_false,
      mem_nameSet_int_core, mem_nameSet_signed_core, mem_nameSet_unsigned_core] <;>
    tauto

/-- C10: the derived catalogs are subsequences of their source catalog, so
they preserve the `FunctionSpec` records themselves and the source order; a
record is kept exactly according to name membership in the other catalog;
and the other catalog contributes only its name list (replacing it by any
catalog with the same names leaves the derived catalogs unchanged). -/
theorem derived_catalogs_preserve_records (i u u2 : List FunctionSpec) :
    (int_core i u).Sublist i
    ∧ (signed_core i u).Sublist i
    ∧ (unsigned_core i u).Sublist u
    ∧ (∀ s, s ∈ int_core i u ↔ s ∈ i ∧ s.name ∈ names u)
    ∧ (∀ s, s ∈ signed_core i u ↔ s ∈ i ∧ s.name ∉ names u)
    ∧ (∀ s, s ∈ unsigned_core i u ↔ s ∈ u ∧ s.name ∉ names i)
    ∧ (names u = names u2 →
        int_core i u = int_core i u2 ∧ signed_core i u = signed_core i u2) := by
  refine ⟨List.filter_sublist i, List.filter_sublist i, List.filter_sublist u, ?_, ?_, ?_, ?_⟩
  · intro s
    simp [int_core, List.mem_filter, List.contains, List.elem_eq_mem]
  · intro s
    simp [signed_core, List.mem_filter, List.contains, List.elem_eq_mem]
  · intro s
    simp [unsigned_core, List.mem_filter, List.contains, List.elem_eq_mem]
  · intro h
    constructor
    · simp only [int_core, h]
    · simp only [signed_core, h]

lemma isPrefixOf_self_append (p b : List Char) : p.isPrefixOf (p ++ b) = true := by
  induction p with
  | nil => simp [List.isPrefixOf]
  | cons c t ih => simp [List.isPrefixOf, ih]

lemma isInfixCh_middle (a p b : List Char) : isInfixCh p (a ++ p ++ b) = true := by
  induction a with
  | nil =>
    cases p with
    | nil => cases b <;> simp [isInfixCh]
    | cons c t => simp [isInfixCh, isPrefixOf_self_append]
  | cons c t ih =>
    simp only [List.cons_append, isInfixCh, List.append_eq, ih, Bool.or_true]

lemma hasSub_middle (a p b : String) : hasSub (a ++ p ++ b) p = true := by
  have h : (a ++ p ++ b).data = a.data ++ p.data ++ b.data := by
    simp [String.data_append]
  simp only [hasSub, h, isInfixCh_middle]

lemma mem_of_isPrefixOf {p l : List Char} (h : p.isPrefixOf l = true) :
    ∀ c ∈ p, c ∈ l := by
  induction p generalizing l with
  | nil => simp
  | cons x xs ih =>
    cases l with
    | nil => simp [List.isPrefixOf] at h
    | cons y ys =>
      simp only [List.isPrefixOf, Bool.and_eq_true, beq_iff_eq] at h
      obtain ⟨rfl, h2⟩ := h
      intro c hc
      rcases List.mem_cons.mp hc with rfl | hc
      · exact List.mem_cons_self ..
      · exact List.mem_cons_of_mem _ (ih h2 c hc)

lemma mem_of_isInfixCh {p l : List Char} (h : isInfixCh p l = true) :
    ∀ c ∈ p, c ∈ l := by
  induction l with
  | nil =>
    cases p with
    | nil => simp
    | cons x xs => simp [isInfixCh] at h
  | cons y ys ih =>
    simp only [isInfixCh, Bool.or_eq_true] at h
    rcases h with h | h
    · exact mem_of_isPrefixOf h
    · intro c hc
      exact List.mem_cons_of_mem _ (ih h c hc)

lemma noMarkers_of_noAt {l : String} (h : noAt l = true) : noMarkers l := by
  constructor
  · by_contra hc
    have h1 : hasSub l "@START@" = true := by
      cases h2 : hasSub l "@START@" with
      | false => exact absurd h2 hc
      | true => rfl
    have := mem_of_isInfixCh h1 '@' (by decide)
    have := (List.all_eq_true.mp h) '@' this
    simp at this
  · by_contra hc
    have h1 : hasSub l "@END@" = true := by
      cases h2 : hasSub l "@END@" with
      | false => exact absurd h2 hc
      | true => rfl
    have := mem_of_isInfixCh h1 '@' (by decide)
    have := (List.all_eq_true.mp h) '@' this
    simp at this

lemma mem_pyReplaceF (pat rep : List Char) :
    ∀ fuel s c, c ∈ pyReplaceF pat rep fuel s → c ∈ s ∨ c ∈ rep := by
  intro fuel
  induction fuel with
  | zero =>
    intro s c h
    cases s with
    | nil => simp [pyReplaceF] at h
    | cons x t => simp only [pyReplaceF] at h; exact Or.inl h
  | succ n ih =>
    intro s c h
    cases s with
    | nil => simp [pyReplaceF] at h
    | cons x t =>
      simp only [pyReplaceF] at h
      split at h
      · rcases List.mem_append.mp h with h1 | h1
        · exact Or.inr h1
        · rcases ih _ c h1 with h2 | h2
          · exact Or.inl (List.mem_of_mem_drop h2)
          · exact Or.inr h2
      · rcases List.mem_cons.mp h with rfl | h1
        · exact Or.inl (List.mem_cons_self ..)
        · rcases ih _ c h1 with h2 | h2
          · exact Or.inl (List.mem_cons_of_mem _ h2)
          · exact Or.inr h2

lemma mem_pyReplace {s pat rep : List Char} {c : Char}
    (h : c ∈ pyReplace s pat rep) : c ∈ s ∨ c ∈ rep := by
  unfold pyReplace at h
  cases pat with
  | nil =>
    rcases List.mem_append.mp h with h1 | h1
    · exact Or.inr h1
    · rcases List.mem_flatMap.mp h1 with ⟨a, ha, hc⟩
      rcases List.mem_cons.mp hc with rfl | hc
      · exact Or.inl ha
      · exact Or.inr hc
  | cons p ps => exact mem_pyReplaceF _ _ _ _ _ h

lemma noAt_append (a b : String) : noAt (a ++ b) = (noAt a && noAt b) := by
  simp [noAt, String.data_append, List.all_append]

lemma noAt_strReplace {s rep : String} (pat : String) (hs : noAt s = true)
    (hr : noAt rep = true) : noAt (strReplace s pat rep) = true := by
  simp only [noAt, strReplace, List.all_eq_true] at *
  intro c hc
  rcases mem_pyReplace hc with h | h
  · exact hs c h
  · exact hr c h

lemma noAt_foldl_replace : ∀ (reps : List (String × String)) (acc : String),
    noAt acc = true → (∀ kv ∈ reps, noAt kv.2 = true) →
    noAt (reps.foldl (fun a kv => strReplace a kv.1 kv.2) acc) = true := by
  intro reps
  induction reps with
  | nil =>
    intro acc h _
    simpa using h
  | cons kv rest ih =>
    intro acc h hall
    simp only [List.foldl_cons]
    exact ih _ (noAt_strReplace _ h (hall kv (List.mem_cons_self ..)))
      (fun x hx => hall x (List.mem_cons_of_mem _ hx))

lemma noAt_substitute (t : Trait) {s : String} (hs : noAt s = true)
    (hrep : ∀ kv ∈ t.replacements, noAt kv.2 = true) :
    noAt (substitute t s) = true := by
  unfold substitute
  exact noAt_foldl_replace _ _ (noAt_strReplace _ hs (by decide)) hrep

lemma noAt_renderFn {indent : String} {t : Trait} {isStd impl : Bool} {fn : FunctionSpec}
    (hi : noAt indent = true) (hex : noAt t.example_implementor = true)
    (hrep : ∀ kv ∈ t.replacements, noAt kv.2 = true) (hfn : cleanFn fn = true) :
    ∀ l ∈ renderFn indent t isStd impl fn, noAt l = true := by
  rw [← List.all_eq_true]
  unfold renderFn
  split
  · rfl
  · rcases hmu : fn.must_use_reason with _ | r <;>
      simp only [cleanFn, hmu, Bool.and_eq_true, Bool.and_true] at hfn
    · obtain ⟨⟨hname, hdef⟩, hcall⟩ := hfn
      have hd := noAt_substitute t hdef hrep
      have hc := noAt_substitute t hcall hrep
      cases impl <;> cases isStd <;> cases hu : fn.isUnsafe <;>
        simp only [hmu, hu, Bool.false_eq_true, ite_true, ite_false, if_true, if_false,
          List.all_append, List.all_cons, List.all_nil, List.append_nil, List.nil_append,
          noAt_append, hi, hex, hd, hc, hname, Bool.true_and, Bool.and_true] <;>
        first | done | decide
    · obtain ⟨⟨⟨hname, hdef⟩, hcall⟩, hr⟩ := hfn
      have hd := noAt_substitute t hdef hrep
      have hc := noAt_substitute t hcall hrep
      cases impl <;> cases isStd <;> cases hu : fn.isUnsafe <;>
        simp only [hmu, hu, Bool.false_eq_true, ite_true, ite_false, if_true, if_false,
          List.all_append, List.all_cons, List.all_nil, List.append_nil, List.nil_append,
          noAt_append, hi, hex, hd, hc, hname, hr, Bool.true_and, Bool.and_true] <;>
        first | done | decide

lemma noMarkers_printDecl {indent : String} {t : Trait} {impl : Bool}
    (ht : cleanTrait t = true) (hi : noAt indent = true) :
    ∀ l ∈ printDecl indent t impl, noMarkers l := by
  simp only [cleanTrait, Bool.and_eq_true, List.all_eq_true] at ht
  obtain ⟨⟨⟨hex, hcore⟩, hstd⟩, hrep⟩ := ht
  intro l hl
  apply noMarkers_of_noAt
  unfold printDecl at hl
  simp only [List.mem_append, List.mem_cons, List.not_mem_nil, or_false,
    List.mem_flatMap] at hl
  rcases hl with ((rfl | rfl) | ⟨fn, hmem, hlin⟩) | ⟨fn, hmem, hlin⟩
  · simp only [noAt_append, hi, Bool.true_and]
    decide
  · decide
  · exact noAt_renderFn hi hex hrep (hcore fn hmem) l hlin
  · exact noAt_renderFn hi hex hrep (hstd fn (List.mem_filter.mp hmem).1) l hlin

lemma spliceAuxSt_append (reg : String → Option Trait) :
    ∀ (xs ys : List String) (c : Bool),
    spliceAuxSt reg (xs ++ ys) c =
      (match spliceAuxSt reg xs c with
       | none => none
       | some (o1, c1) =>
         match spliceAuxSt reg ys c1 with
         | none => none
         | some (o2, c2) => some (o1 ++ o2, c2)) := by
  intro xs
  induction xs with
  | nil =>
    intro ys c
    simp only [List.nil_append, spliceAuxSt]
    cases spliceAuxSt reg ys c with
    | none => rfl
    | some oc => cases oc; simp
  | cons x t ih =>
    intro ys c
    simp only [List.cons_append, spliceAuxSt]
    cases spliceStep reg x c with
    | none => rfl
    | some oc1 =>
      obtain ⟨o, c1⟩ := oc1
      dsimp only
      simp only [List.append_eq]
      rw [ih]
      cases spliceAuxSt reg t c1 with
      | none => rfl
      | some oc2 =>
        obtain ⟨o2, c2⟩ := oc2
        dsimp only
        cases spliceAuxSt reg ys c2 with
        | none => rfl
        | some oc3 =>
          obtain ⟨o3, c3⟩ := oc3
          dsimp only
          rw [List.append_assoc]

lemma spliceStep_plain {l : String} (reg : String → Option Trait) (c : Bool)
    (h : noMarkers l) :
    spliceStep reg l c = some (if c then [l] else [], c) := by
  obtain ⟨h1, h2⟩ := h
  simp [spliceStep, h1, h2]

lemma spliceAuxSt_skip (reg : String → Option Trait) :
    ∀ {st : List String}, (∀ l ∈ st, noMarkers l) →
    spliceAuxSt reg st false = some ([], false) := by
  intro st
  induction st with
  | nil => intro _; rfl
  | cons x t ih =>
    intro h
    simp only [spliceAuxSt, spliceStep_plain reg false (h x (List.mem_cons_self ..)),
      ih (fun l hl => h l (List.mem_cons_of_mem _ hl))]
    simp

lemma spliceAuxSt_copy (reg : String → Option Trait) :
    ∀ {ls : List String}, (∀ l ∈ ls, noMarkers l) →
    spliceAuxSt reg ls true = some (ls, true) := by
  intro ls
  induction ls with
  | nil => intro _; rfl
  | cons x t ih =>
    intro h
    simp only [spliceAuxSt, spliceStep_plain reg true (h x (List.mem_cons_self ..)),
      ih (fun l hl => h l (List.mem_cons_of_mem _ hl))]
    simp

lemma spliceStep_start {s ind ty nm : String} {t : Trait} (reg : String → Option Trait)
    (h1 : hasSub s "@START@" = true) (h2 : hasSub s "@END@" = false)
    (hp : parseStart s = some (ind, ty, nm)) (hr : reg nm = some t) :
    spliceStep reg s true = some (s :: printDecl ind t (ty == "IMPL"), false) := by
  simp [spliceStep, h1, h2, hp, hr]

lemma spliceStep_end {e : String} (reg : String → Option Trait)
    (h1 : hasSub e "@START@" = false) (h2 : hasSub e "@END@" = true) :
    spliceStep reg e false = some ([e], true) := by
  simp [spliceStep, h1, h2]

lemma spliceAuxSt_region {reg : String → Option Trait} {s e ind ty nm : String}
    {st : List String} {t : Trait}
    (h1 : hasSub s "@START@" = true) (h2 : hasSub s "@END@" = false)
    (hp : parseStart s = some (ind, ty, nm)) (hr : reg nm = some t)
    (hst : ∀ l ∈ st, noMarkers l)
    (he1 : hasSub e "@END@" = true) (he2 : hasSub e "@START@" = false) :
    spliceAuxSt reg (s :: (st ++ [e])) true
      = some (s :: (printDecl ind t (ty == "IMPL") ++ [e]), true) := by
  simp only [spliceAuxSt, spliceStep_start reg h1 h2 hp hr]
  rw [spliceAuxSt_append reg st [e] false, spliceAuxSt_skip reg hst]
  simp only [spliceAuxSt, spliceStep_end reg he2 he1]
  simp

lemma spliceAuxSt_block {reg : String → Option Trait} {b : Block} (h : BlockOK reg b) :
    spliceAuxSt reg b.flatten true = some (blockOut reg b, true) := by
  cases b with
  | plain l =>
    simp only [Block.flatten, blockOut, spliceAuxSt, spliceStep_plain reg true h]
    simp
  | region s st e =>
    obtain ⟨h1, h2, ⟨ind, ty, nm, t, hp, hr, _⟩, hst, he1, he2⟩ := h
    simp only [Block.flatten]
    rw [spliceAuxSt_region h1 h2 hp hr hst he1 he2]
    simp [blockOut, hp, hr]

lemma spliceAuxSt_blocks {reg : String → Option Trait} :
    ∀ {bs : List Block}, (∀ b ∈ bs, BlockOK reg b) →
    spliceAuxSt reg (flattenBlocks bs) true = some (bs.flatMap (blockOut reg), true) := by
  intro bs
  induction bs with
  | nil => intro _; rfl
  | cons b rest ih =>
    intro h
    simp only [flattenBlocks, List.flatMap_cons]
    rw [spliceAuxSt_append, spliceAuxSt_block (h b (List.mem_cons_self ..))]
    dsimp only
    rw [show rest.flatMap Block.flatten = flattenBlocks rest from rfl,
      ih (fun x hx => h x (List.mem_cons_of_mem _ hx))]

lemma freshBlock_ok {reg : String → Option Trait} {b : Block} (h : BlockOK reg b) :
    BlockOK reg (freshBlock reg b) := by
  cases b with
  | plain l => exact h
  | region s st e =>
    obtain ⟨h1, h2, ⟨ind, ty, nm, t, hp, hr, hclean⟩, hst, he1, he2⟩ := h
    simp only [freshBlock, hp, hr]
    exact ⟨h1, h2, ⟨ind, ty, nm, t, hp, hr, hclean⟩, hclean, he1, he2⟩

lemma blockOut_freshBlock {reg : String → Option Trait} {b : Block} (h : BlockOK reg b) :
    blockOut reg (freshBlock reg b) = blockOut reg b := by
  cases b with
  | plain l => rfl
  | region s st e =>
    obtain ⟨_, _, ⟨ind, ty, nm, t, hp, hr, _⟩, _, _, _⟩ := h
    simp [freshBlock, blockOut, hp, hr]

lemma flatten_freshBlock {reg : String → Option Trait} {b : Block} (h : BlockOK reg b) :
    (freshBlock reg b).flatten = blockOut reg b := by
  cases b with
  | plain l => rfl
  | region s st e =>
    obtain ⟨_, _, ⟨ind, ty, nm, t, hp, hr, _⟩, _, _, _⟩ := h
    simp [freshBlock, blockOut, Block.flatten, hp, hr]

lemma fresh_blocks_eq {reg : String → Option Trait} :
    ∀ {bs : List Block}, (∀ b ∈ bs, BlockOK reg b) →
    flattenBlocks (bs.map (freshBlock reg)) = bs.flatMap (blockOut reg)
      ∧ (bs.map (freshBlock reg)).flatMap (blockOut reg) = bs.flatMap (blockOut reg) := by
  intro bs
  induction bs with
  | nil => intro _; exact ⟨rfl, rfl⟩
  | cons b rest ih =>
    intro h
    obtain ⟨ih1, ih2⟩ := ih (fun x hx => h x (List.mem_cons_of_mem _ hx))
    have hb := h b (List.mem_cons_self ..)
    constructor
    · simp only [flattenBlocks, List.map_cons, List.flatMap_cons] at *
      rw [flatten_freshBlock hb, ih1]
    · simp only [List.map_cons, List.flatMap_cons] at *
      rw [blockOut_freshBlock hb, ih2]

lemma spliceRun_commit {reg : String → Option Trait} {input out : List String}
    (h : splice reg input = some out) :
    (spliceRun reg input).getLast? = some (FS.mk out (some out)) := by
  unfold splice at h
  unfold spliceRun
  cases hx : spliceAuxSt reg input true with
  | none => rw [hx] at h; exact Option.noConfusion h
  | some oc =>
    obtain ⟨o, c⟩ := oc
    rw [hx] at h
    simp only [Option.map] at h
    obtain rfl : o = out := by exact Option.some.inj h
    exact List.getLast?_concat _

/-- C1: along the run trace, every state reached while input lines are still
being processed (and every state of an aborted run) shows the original
target file unchanged; any state whose target differs from the original is
the commit state holding the fully rendered output; the temporary file grows
append-only (the contents after j lines are a list prefix of the contents
after k ≥ j lines); and on success the final state is the atomic-rename
commit whose target is exactly the rendered output. -/
theorem splice_commit_is_atomic (reg : String → Option Trait) (input : List String) :
    (∀ st ∈ (spliceRun reg input).take (input.length + 1), st.target = input)
    ∧ (∀ st ∈ spliceRun reg input,
        st.target = input ∨ ∃ c, spliceAuxSt reg input true = some (st.target, c))
    ∧ (∀ j k : Nat, j ≤ k → ∀ tj tk, tempAfter reg input j = some tj →
        tempAfter reg input k = some tk → tj <+: tk)
    ∧ (∀ out, splice reg input = some out →
        (spliceRun reg input).getLast? = some (FS.mk out (some out))) := by
  refine ⟨?_, ?_, ?_, fun out h => spliceRun_commit h⟩
  · intro st hst
    unfold spliceRun at hst
    rw [List.take_left' (by simp)] at hst
    rcases List.mem_map.mp hst with ⟨k, _, rfl⟩
    rfl
  · intro st hst
    unfold spliceRun at hst
    rcases List.mem_append.mp hst with h | h
    · rcases List.mem_map.mp h with ⟨k, _, rfl⟩
      exact Or.inl rfl
    · cases hx : spliceAuxSt reg input true with
      | none => simp only [hx] at h; exact absurd h (List.not_mem_nil _)
      | some oc =>
        obtain ⟨o, c⟩ := oc
        rw [hx] at h
        simp only [List.mem_singleton] at h
        subst h
        exact Or.inr ⟨c, by simp [hx]⟩
  · intro j k hjk tj tk hj hk
    have h1 : (input.take k).take j = input.take j := by
      rw [List.take_take, min_eq_left hjk]
    have hdec : input.take k = input.take j ++ (input.take k).drop j := by
      conv_lhs => rw [← List.take_append_drop j (input.take k)]
      rw [h1]
    unfold tempAfter at hj hk
    rw [hdec, spliceAuxSt_append] at hk
    cases hx : spliceAuxSt reg (input.take j) true with
    | none => rw [hx] at hj; exact Option.noConfusion hj
    | some oc =>
      obtain ⟨o1, c1⟩ := oc
      rw [hx] at hj hk
      simp only [Option.map] at hj
      obtain rfl : o1 = tj := Option.some.inj hj
      dsimp only at hk
      cases hy : spliceAuxSt reg ((input.take k).drop j) c1 with
      | none => rw [hy] at hk; exact Option.noConfusion hk
      | some oc2 =>
        obtain ⟨o2, c2⟩ := oc2
        rw [hy] at hk
        simp only [Option.map] at hk
        exact ⟨o2, Option.some.inj hk⟩

/-- C7: on a well-formed block-structured target file whose regions render
to marker-free text, splicing produces the fully replaced output, and
splicing that output again reproduces it unchanged (idempotence); moreover
rendered text never contains a start or end marker provided the trait
catalogs and indent are free of the `@` marker character. -/
theorem splice_idempotent (reg : String → Option Trait) (bs : List Block)
    (h : ∀ b ∈ bs, BlockOK reg b) :
    splice reg (flattenBlocks bs) = some (bs.flatMap (blockOut reg))
    ∧ splice reg (bs.flatMap (blockOut reg)) = some (bs.flatMap (blockOut reg))
    ∧ (∀ (t : Trait) (indent : String) (impl : Bool),
        cleanTrait t = true → noAt indent = true →
        ∀ l ∈ printDecl indent t impl, noMarkers l) := by
  have h1 : splice reg (flattenBlocks bs) = some (bs.flatMap (blockOut reg)) := by
    unfold splice
    rw [spliceAuxSt_blocks h]
    rfl
  refine ⟨h1, ?_, fun t indent impl ht hi => noMarkers_printDecl ht hi⟩
  obtain ⟨heq1, heq2⟩ := fresh_blocks_eq h
  have hfresh : ∀ b ∈ bs.map (freshBlock reg), BlockOK reg b := by
    intro b hb
    rcases List.mem_map.mp hb with ⟨a, ha, rfl⟩
    exact freshBlock_ok (h a ha)
  have h2 : splice reg (flattenBlocks (bs.map (freshBlock reg)))
      = some ((bs.map (freshBlock reg)).flatMap (blockOut reg)) := by
    unfold splice
    rw [spliceAuxSt_blocks hfresh]
    rfl
  rw [heq1, heq2] at h2
  exact h2

/-- C4: for a target file `pre ++ [\"// @START@ IMPL FLOAT\"] ++ stale ++
[\"// @END@\"] ++ post` (marker-free elsewhere) and the real `TRAITS`
registry, splicing preserves both marker lines verbatim, discards every
stale line between them, renders exactly the implementation-mode FLOAT block
(with the captured empty indent) between them, and copies all other lines
unchanged. -/
theorem splice_replaces_float_region (i32c u32c f32c f32s : List FunctionSpec)
    (pre stale post : List String)
    (hpre : ∀ l ∈ pre, noMarkers l) (hstale : ∀ l ∈ stale, noMarkers l)
    (hpost : ∀ l ∈ post, noMarkers l) :
    splice (TRAITS i32c u32c f32c f32s)
        (pre ++ ["// @START@ IMPL FLOAT"] ++ stale ++ ["// @END@"] ++ post)
      = some (pre ++ ["// @START@ IMPL FLOAT"]
          ++ printDecl "" (FLOATtrait f32c f32s) true ++ ["// @END@"] ++ post) := by
  have hreg : TRAITS i32c u32c f32c f32s "FLOAT" = some (FLOATtrait f32c f32s) := rfl
  have hp : parseStart "// @START@ IMPL FLOAT" = some ("", "IMPL", "FLOAT") := by decide
  have e1 : pre ++ ["// @START@ IMPL FLOAT"] ++ stale ++ ["// @END@"] ++ post
      = pre ++ (("// @START@ IMPL FLOAT" :: (stale ++ ["// @END@"])) ++ post) := by
    simp
  unfold splice
  rw [e1, spliceAuxSt_append, spliceAuxSt_copy _ hpre]
  dsimp only
  rw [spliceAuxSt_append,
    spliceAuxSt_region (by decide) (by decide) hp hreg hstale (by decide) (by decide)]
  dsimp only
  rw [spliceAuxSt_copy _ hpost]
  dsimp only
  simp only [Option.map]
  congr 1
  have : ("IMPL" == "IMPL") = true := rfl
  rw [this]
  simp

/-- C9: a start marker with no subsequent end marker raises no error: the
splicer succeeds, every remaining line after the start marker is discarded,
the output is the prefix plus the marker line plus the rendered block, and
the truncated output is still committed over the target on exit. -/
theorem splice_unterminated_region (i32c u32c f32c f32s : List FunctionSpec)
    (pre rest : List String)
    (hpre : ∀ l ∈ pre, noMarkers l) (hrest : ∀ l ∈ rest, noMarkers l) :
    splice (TRAITS i32c u32c f32c f32s)
        (pre ++ ["// @START@ IMPL FLOAT"] ++ rest)
      = some (pre ++ ["// @START@ IMPL FLOAT"]
          ++ printDecl "" (FLOATtrait f32c f32s) true)
    ∧ (spliceRun (TRAITS i32c u32c f32c f32s)
          (pre ++ ["// @START@ IMPL FLOAT"] ++ rest)).getLast?
        = some (FS.mk
            (pre ++ ["// @START@ IMPL FLOAT"]
              ++ printDecl "" (FLOATtrait f32c f32s) true)
            (some (pre ++ ["// @START@ IMPL FLOAT"]
              ++ printDecl "" (FLOATtrait f32c f32s) true))) := by
  have hreg : TRAITS i32c u32c f32c f32s "FLOAT" = some (FLOATtrait f32c f32s) := rfl
  have hp : parseStart "// @START@ IMPL FLOAT" = some ("", "IMPL", "FLOAT") := by decide
  have e1 : pre ++ ["// @START@ IMPL FLOAT"] ++ rest
      = pre ++ ("// @START@ IMPL FLOAT" :: rest) := by
    simp
  have hsplice : splice (TRAITS i32c u32c f32c f32s)
      (pre ++ ["// @START@ IMPL FLOAT"] ++ rest)
      = some (pre ++ ["// @START@ IMPL FLOAT"]
          ++ printDecl "" (FLOATtrait f32c f32s) true) := by
    unfold splice
    rw [e1, spliceAuxSt_append, spliceAuxSt_copy _ hpre]
    dsimp only
    simp only [spliceAuxSt, spliceStep_start _ (by decide) (by decide) hp hreg]
    rw [spliceAuxSt_skip _ hrest]
    dsimp only
    simp only [Option.map]
    congr 1
    have : ("IMPL" == "IMPL") = true := rfl
    rw [this]
    simp
  exact ⟨hsplice, spliceRun_commit hsplice⟩

lemma renderFn_ignored {indent : String} {t : Trait} {isStd impl : Bool}
    {fn : FunctionSpec} (h : t.ignores.contains fn.name = true) :
    renderFn indent t isStd impl fn = [] := by
  unfold renderFn
  rw [h]
  rfl

lemma contains_mid_ne {pre post : List String} {a x : String} (h : x ≠ a) :
    (pre ++ a :: post).contains x = (pre ++ post).contains x := by
  simp only [List.contains, List.elem_eq_mem, List.mem_append, List.mem_cons]
  congr 1
  simp [h]

lemma contains_mid_self {pre post : List String} {a : String} :
    (pre ++ a :: post).contains a = true := by
  simp [List.contains, List.elem_eq_mem]

lemma filter_flatMap_names (R : FunctionSpec → List String) (fname : String)
    (hR : ∀ s : FunctionSpec, s.name = fname → R s = [])
    (ns1 ns2 : List String)
    (hcontains : ∀ x : String, x ≠ fname → ns1.contains x = ns2.contains x)
    (h1 : ns1.contains fname = true) :
    ∀ std : List FunctionSpec,
    (std.filter (fun s => !ns1.contains s.name)).flatMap R
      = (std.filter (fun s => !ns2.contains s.name)).flatMap R := by
  intro std
  induction std with
  | nil => rfl
  | cons s rest ih =>
    rw [List.filter_cons, List.filter_cons]
    by_cases hs : s.name = fname
    · rw [hs, h1]
      simp only [Bool.not_true, if_false, Bool.false_eq_true, ite_false]
      cases hc : ns2.contains fname with
      | true =>
        simp only [Bool.not_true, Bool.false_eq_true, ite_false]
        exact ih
      | false =>
        simp only [Bool.not_false, ite_true, List.flatMap_cons, hR s hs,
          List.nil_append]
        exact ih
    · rw [hcontains s.name hs]
      cases hc : ns2.contains s.name with
      | true =>
        simp only [Bool.not_true, Bool.false_eq_true, ite_false]
        exact ih
      | false =>
        simp only [Bool.not_false, ite_true, List.flatMap_cons]
        rw [ih]

/-- C6: a method whose name is in the exclusion set of the grouping
contributes zero output lines in either mode, wherever it sits: removing it
from the core catalog or from the std catalog leaves the rendered output
unchanged; in particular the Scenario C grouping (exclusions `min_value`,
`max_value`; core catalog `[min_value]`) renders only the generated-by
header in both modes, and so does the FLOAT grouping with the std-catalog
excluded method `div_euclid`. -/
theorem ignored_method_renders_nothing :
    (∀ (indent : String) (t : Trait) (impl : Bool) (pre post : List FunctionSpec)
        (fn : FunctionSpec), t.ignores.contains fn.name = true →
        printDecl indent (withCore t (pre ++ fn :: post)) impl
          = printDecl indent (withCore t (pre ++ post)) impl)
    ∧ (∀ (indent : String) (t : Trait) (impl : Bool) (pre post : List FunctionSpec)
        (fn : FunctionSpec), t.ignores.contains fn.name = true →
        printDecl indent (withStd t (pre ++ fn :: post)) impl
          = printDecl indent (withStd t (pre ++ post)) impl)
    ∧ printDecl "" scenCTrait false = ["// Generated by generate_delegates.py", ""]
    ∧ printDecl "" scenCTrait true = ["// Generated by generate_delegates.py", ""]
    ∧ printDecl "" (FLOATtrait [] [divEuclidSpec]) false
        = ["// Generated by generate_delegates.py", ""]
    ∧ printDecl "" (FLOATtrait [] [divEuclidSpec]) true
        = ["// Generated by generate_delegates.py", ""] := by
  refine ⟨?_, ?_, by decide, by decide, by decide, by decide⟩
  case refine_2 =>
    intro indent t impl pre post fn h
    have e1 : renderFn indent (withStd t (pre ++ fn :: post)) = renderFn indent t := rfl
    have e2 : renderFn indent (withStd t (pre ++ post)) = renderFn indent t := rfl
    simp only [printDecl]
    simp only [show ∀ c, (withStd t c).core_fns = t.core_fns from fun c => rfl,
      show ∀ c, (withStd t c).std_fns = c from fun c => rfl, e1, e2]
    congr 1
    rw [List.filter_append, List.filter_cons, List.filter_append]
    cases hcn : (names t.core_fns).contains fn.name with
    | true =>
      simp only [Bool.not_true, Bool.false_eq_true, ite_false]
    | false =>
      simp only [Bool.not_false, ite_true]
      rw [List.flatMap_append, List.flatMap_append, List.flatMap_cons,
        renderFn_ignored h]
      simp
  intro indent t impl pre post fn h
  have e1 : renderFn indent (withCore t (pre ++ fn :: post)) = renderFn indent t := rfl
  have e2 : renderFn indent (withCore t (pre ++ post)) = renderFn indent t := rfl
  simp only [printDecl]
  simp only [show ∀ c, (withCore t c).core_fns = c from fun c => rfl,
    show ∀ c, (withCore t c).std_fns = t.std_fns from fun c => rfl, e1, e2]
  congr 1
  · congr 1
    rw [List.flatMap_append, List.flatMap_append, List.flatMap_cons, renderFn_ignored h]
    simp
  · have hn : names (pre ++ fn :: post) = names pre ++ fn.name :: names post := by
      simp [names]
    have hn2 : names (pre ++ post) = names pre ++ names post := by
      simp [names]
    rw [hn, hn2]
    exact filter_flatMap_names (renderFn indent t true impl) fn.name
      (fun s hs => renderFn_ignored (hs ▸ h)) _ _
      (fun x hx => contains_mid_ne hx) contains_mid_self t.std_fns


lemma isPrefixOf_exists : ∀ {p b : List Char}, p.isPrefixOf b = true → ∃ w, b = p ++ w := by
  intro p
  induction p with
  | nil => intro b _; exact ⟨b, rfl⟩
  | cons c p' ih =>
    intro b h
    cases b with
    | nil => simp [List.isPrefixOf] at h
    | cons d b' =>
      simp only [List.isPrefixOf, Bool.and_eq_true, beq_iff_eq] at h
      obtain ⟨rfl, h2⟩ := h
      obtain ⟨w, rfl⟩ := ih h2
      exact ⟨w, rfl⟩

lemma isPrefixOf_append_cases : ∀ {p : List Char} (a : List Char) {b : List Char},
    p.isPrefixOf (a ++ b) = true →
    p.isPrefixOf a = true ∨ ∃ v, p = a ++ v ∧ v.isPrefixOf b = true := by
  intro p a
  induction a generalizing p with
  | nil => intro b h; exact Or.inr ⟨p, rfl, h⟩
  | cons c a' ih =>
    intro b h
    cases p with
    | nil => exact Or.inl (by simp [List.isPrefixOf])
    | cons d p' =>
      simp only [List.cons_append, List.isPrefixOf, Bool.and_eq_true, beq_iff_eq] at h
      obtain ⟨rfl, h2⟩ := h
      rcases ih h2 with h3 | ⟨v, rfl, h4⟩
      · exact Or.inl (by simp [List.isPrefixOf, h3])
      · exact Or.inr ⟨v, by simp, h4⟩

lemma isInfixCh_of_isPrefixOf {p l : List Char} (h : p.isPrefixOf l = true) :
    isInfixCh p l = true := by
  cases l with
  | nil =>
    cases p with
    | nil => rfl
    | cons c p' => simp [List.isPrefixOf] at h
  | cons c t => simp [isInfixCh, h]

lemma isPrefixOf_refl (p : List Char) : p.isPrefixOf p = true := by
  induction p with
  | nil => rfl
  | cons c t ih => simp [List.isPrefixOf, ih]

lemma isInfixCh_append_split {p : List Char} (a : List Char) {b : List Char}
    (h : isInfixCh p (a ++ b) = true) :
    isInfixCh p a = true ∨ isInfixCh p b = true ∨
      ∃ u v, p = u ++ v ∧ u ≠ [] ∧ v ≠ [] ∧ (∃ w, a = w ++ u) ∧ (∃ w, b = v ++ w) := by
  induction a with
  | nil =>
    simp only [List.nil_append] at h
    exact Or.inr (Or.inl h)
  | cons c a' ih =>
    simp only [List.cons_append, isInfixCh, Bool.or_eq_true] at h
    rcases h with h | h
    · have h' : p.isPrefixOf ((c :: a') ++ b) = true := by simpa using h
      rcases isPrefixOf_append_cases (c :: a') h' with h1 | ⟨v, rfl, h2⟩
      · exact Or.inl (isInfixCh_of_isPrefixOf h1)
      · cases v with
        | nil =>
          refine Or.inl ?_
          have : ((c :: a') ++ []).isPrefixOf (c :: a') = true := by
            rw [List.append_nil]; exact isPrefixOf_refl (c :: a')
          exact isInfixCh_of_isPrefixOf this
        | cons v0 v' =>
          refine Or.inr (Or.inr ⟨c :: a', v0 :: v', rfl, by simp, by simp,
            ⟨[], rfl⟩, isPrefixOf_exists h2⟩)
    · rcases ih h with h1 | h1 | ⟨u, v, rfl, hu, hv, ⟨w, rfl⟩, hw⟩
      · exact Or.inl (by simp [isInfixCh, h1])
      · exact Or.inr (Or.inl h1)
      · exact Or.inr (Or.inr ⟨u, v, rfl, hu, hv, ⟨c :: w, by simp⟩, hw⟩)

lemma getLast?_of_exists_append (u a w : List Char) (hu : u ≠ []) (h : a = w ++ u) :
    a.getLast? = u.getLast? := by
  rcases List.eq_nil_or_concat u with rfl | ⟨u', c, rfl⟩
  · exact absurd rfl hu
  · subst h
    rw [List.concat_eq_append]
    rw [show w ++ (u' ++ [c]) = (w ++ u') ++ [c] by simp]
    rw [List.getLast?_concat, List.getLast?_concat]

lemma mem_of_getLast? {l : List Char} {c : Char} (h : l.getLast? = some c) : c ∈ l := by
  rcases List.eq_nil_or_concat l with rfl | ⟨l', d, rfl⟩
  · simp at h
  · rw [List.concat_eq_append, List.getLast?_concat] at h
    injection h with h
    simp [List.concat_eq_append, h]

lemma no_span_right {p a b : List Char}
    (halnum : ∀ c ∈ p, c.isAlphanum = true)
    (hb : ∀ c, b.head? = some c → c.isAlphanum = false) :
    ¬∃ u v, p = u ++ v ∧ u ≠ [] ∧ v ≠ [] ∧ (∃ w, a = w ++ u) ∧ (∃ w, b = v ++ w) := by
  rintro ⟨u, v, rfl, hu, hv, _, ⟨w, rfl⟩⟩
  cases v with
  | nil => exact hv rfl
  | cons v0 v' =>
    have h1 : v0.isAlphanum = true := halnum v0 (by simp)
    have h2 : v0.isAlphanum = false := hb v0 (by simp)
    rw [h1] at h2
    exact Bool.noConfusion h2

lemma no_span_left {p a b : List Char}
    (halnum : ∀ c ∈ p, c.isAlphanum = true)
    (ha : ∀ c, a.getLast? = some c → c.isAlphanum = false) :
    ¬∃ u v, p = u ++ v ∧ u ≠ [] ∧ v ≠ [] ∧ (∃ w, a = w ++ u) ∧ (∃ w, b = v ++ w) := by
  rintro ⟨u, v, rfl, hu, hv, ⟨w, rfl⟩, _⟩
  rcases List.eq_nil_or_concat u with rfl | ⟨u', c, rfl⟩
  · exact hu rfl
  · rw [List.concat_eq_append] at *
    have hl : (w ++ (u' ++ [c])).getLast? = some c :=
      (getLast?_of_exists_append (u' ++ [c]) _ w (by simp) rfl).trans
        (List.getLast?_concat u')
    have h1 : c.isAlphanum = true := halnum c (by simp)
    have h2 : c.isAlphanum = false := ha c hl
    rw [h1] at h2
    exact Bool.noConfusion h2

lemma isInfixCh_append_false {p a b : List Char}
    (ha : isInfixCh p a = false) (hb : isInfixCh p b = false)
    (hspan : ¬∃ u v, p = u ++ v ∧ u ≠ [] ∧ v ≠ [] ∧ (∃ w, a = w ++ u) ∧ (∃ w, b = v ++ w)) :
    isInfixCh p (a ++ b) = false := by
  cases hx : isInfixCh p (a ++ b) with
  | false => rfl
  | true =>
    rcases isInfixCh_append_split a hx with h | h | h
    · rw [ha] at h; exact absurd h Bool.false_ne_true
    · rw [hb] at h; exact absurd h Bool.false_ne_true
    · exact absurd h hspan

lemma no_occ_of_no_digit {p x : List Char} {d : Char} (hd : d ∈ p) (hdig : d.isDigit = true)
    (hx : ∀ c ∈ x, c.isDigit = false) : isInfixCh p x = false := by
  cases h : isInfixCh p x with
  | false => rfl
  | true =>
    have hmem := mem_of_isInfixCh h d hd
    rw [hx d hmem] at hdig
    exact absurd hdig Bool.false_ne_true

lemma isSpaceCh_not_alnum {c : Char} (h : isSpaceCh c = true) : c.isAlphanum = false := by
  simp only [isSpaceCh, Bool.or_eq_true, beq_iff_eq] at h
  rcases h with ((((rfl | rfl) | rfl) | rfl) | rfl) | rfl <;> decide

lemma isSpaceCh_not_digit {c : Char} (h : isSpaceCh c = true) : c.isDigit = false := by
  simp only [isSpaceCh, Bool.or_eq_true, beq_iff_eq] at h
  rcases h with ((((rfl | rfl) | rfl) | rfl) | rfl) | rfl <;> decide

lemma head_cond (b : List Char) (c0 : Char) (h0 : b.head? = some c0)
    (hc : c0.isAlphanum = false) :
    ∀ c, b.head? = some c → c.isAlphanum = false := by
  intro c hc2
  rw [h0] at hc2
  injection hc2 with h
  rwa [← h]

lemma last_cond (a : List Char) (c0 : Char) (h0 : a.getLast? = some c0)
    (hc : c0.isAlphanum = false) :
    ∀ c, a.getLast? = some c → c.isAlphanum = false := by
  intro c hc2
  rw [h0] at hc2
  injection hc2 with h
  rwa [← h]

lemma hasSub_append_false {a b p : String}
    (ha : hasSub a p = false) (hb : hasSub b p = false)
    (hspan : ¬∃ u v, p.data = u ++ v ∧ u ≠ [] ∧ v ≠ [] ∧
      (∃ w, a.data = w ++ u) ∧ (∃ w, b.data = v ++ w)) :
    hasSub (a ++ b) p = false := by
  simp only [hasSub, String.data_append]
  exact isInfixCh_append_false ha hb hspan

lemma hasSub_empty {p : String} (hp : p.data ≠ []) : hasSub "" p = false := by
  cases hd : p.data with
  | nil => exact absurd hd hp
  | cons c t => simp [hasSub, isInfixCh, hd]

lemma exNameOK_unpack {t : Trait} (h : exNameOK t = true) :
    t.example_implementor.data ≠ []
    ∧ (∀ c ∈ t.example_implementor.data, c.isAlphanum = true)
    ∧ ∃ d ∈ t.example_implementor.data, d.isDigit = true := by
  simp only [exNameOK, Bool.and_eq_true, Bool.not_eq_true', List.all_eq_true,
    List.any_eq_true] at h
  obtain ⟨⟨h1, h2⟩, h3⟩ := h
  refine ⟨?_, h2, h3⟩
  intro hnil
  rw [hnil] at h1
  simp at h1

lemma renderFn_impl_no_example {indent : String} {t : Trait} {isStd : Bool}
    {fn : FunctionSpec}
    (hname : exNameOK t = true)
    (hind : ∀ c ∈ indent.data, isSpaceCh c = true)
    (hdef : hasSub (substitute t fn.definition) t.example_implementor = false)
    (hcall : hasSub (substitute t fn.call) t.example_implementor = false) :
    ∀ l ∈ renderFn indent t isStd true fn, hasSub l t.example_implementor = false := by
  obtain ⟨hne, hal, d, hd, hdig⟩ := exNameOK_unpack hname
  have hindK : hasSub indent t.example_implementor = false :=
    no_occ_of_no_digit hd hdig (fun c hc => isSpaceCh_not_digit (hind c hc))
  have hindLast : ∀ c, indent.data.getLast? = some c → c.isAlphanum = false :=
    fun c hc => isSpaceCh_not_alnum (hind c (mem_of_getLast? hc))
  have hcfg : hasSub (indent ++ "#[cfg(feature = \"std\")]") t.example_implementor = false :=
    hasSub_append_false hindK
      (no_occ_of_no_digit hd hdig (by decide))
      (no_span_right hal (head_cond "#[cfg(feature = \"std\")]".data '#' rfl (by decide)))
  have hA : hasSub (indent ++ substitute t fn.definition ++ " \x7b")
      t.example_implementor = false :=
    hasSub_append_false
      (hasSub_append_false hindK hdef (no_span_left hal hindLast))
      (no_occ_of_no_digit hd hdig (by decide))
      (no_span_right hal (head_cond " \x7b".data ' ' rfl (by decide)))
  have hBinner : hasSub (indent ++ "    Self::") t.example_implementor = false :=
    hasSub_append_false hindK
      (no_occ_of_no_digit hd hdig (by decide))
      (no_span_right hal (head_cond "    Self::".data ' ' rfl (by decide)))
  have hBlast : (indent ++ "    Self::").data.getLast? = some ':' := by
    rw [String.data_append]
    rw [getLast?_of_exists_append "    Self::".data _ indent.data (by decide) rfl]
    decide
  have hB : hasSub (indent ++ "    Self::" ++ substitute t fn.call)
      t.example_implementor = false :=
    hasSub_append_false hBinner hcall
      (no_span_left hal (last_cond (indent ++ "    Self::").data ':' hBlast (by decide)))
  have hC : hasSub (indent ++ "\x7d") t.example_implementor = false :=
    hasSub_append_false hindK
      (no_occ_of_no_digit hd hdig (by decide))
      (no_span_right hal (head_cond "\x7d".data '\x7d' rfl (by decide)))
  have hE : hasSub "" t.example_implementor = false := hasSub_empty hne
  intro l hl
  unfold renderFn at hl
  split at hl
  · simp at hl
  · cases isStd with
    | false =>
      simp only [ite_true, ite_false, Bool.false_eq_true, if_false, List.nil_append,
        List.mem_append, List.mem_cons, List.not_mem_nil, or_false] at hl
      rcases hl with rfl | rfl | rfl | rfl
      · exact hA
      · exact hB
      · exact hC
      · exact hE
    | true =>
      simp only [ite_true, ite_false, Bool.false_eq_true, if_false, List.mem_append,
        List.mem_cons, List.not_mem_nil, or_false, List.mem_singleton] at hl
      rcases hl with rfl | rfl | rfl | rfl | rfl
      · exact hcfg
      · exact hA
      · exact hB
      · exact hC
      · exact hE

lemma renderFn_decl_example_only_docs {indent : String} {t : Trait} {isStd : Bool}
    {fn : FunctionSpec}
    (hname : exNameOK t = true)
    (hind : ∀ c ∈ indent.data, isSpaceCh c = true)
    (hdef : hasSub (substitute t fn.definition) t.example_implementor = false)
    (hmu : ∀ r, fn.must_use_reason = some r → hasSub r t.example_implementor = false) :
    ∀ l ∈ renderFn indent t isStd false fn, hasSub l t.example_implementor = true →
      l = indent ++ "/// See "
        ++ ("[`" ++ t.example_implementor ++ "::" ++ fn.name ++ "`]") ++ "." := by
  obtain ⟨hne, hal, d, hd, hdig⟩ := exNameOK_unpack hname
  have hindK : hasSub indent t.example_implementor = false :=
    no_occ_of_no_digit hd hdig (fun c hc => isSpaceCh_not_digit (hind c hc))
  have hindLast : ∀ c, indent.data.getLast? = some c → c.isAlphanum = false :=
    fun c hc => isSpaceCh_not_alnum (hind c (mem_of_getLast? hc))
  have hcfg : hasSub (indent ++ "#[cfg(feature = \"std\")]") t.example_implementor = false :=
    hasSub_append_false hindK
      (no_occ_of_no_digit hd hdig (by decide))
      (no_span_right hal (head_cond "#[cfg(feature = \"std\")]".data '#' rfl (by decide)))
  have hSlash : hasSub (indent ++ "///") t.example_implementor = false :=
    hasSub_append_false hindK
      (no_occ_of_no_digit hd hdig (by decide))
      (no_span_right hal (head_cond "///".data '/' rfl (by decide)))
  have hSafety : hasSub (indent ++ "/// # Safety") t.example_implementor = false :=
    hasSub_append_false hindK
      (no_occ_of_no_digit hd hdig (by decide))
      (no_span_right hal (head_cond "/// # Safety".data '/' rfl (by decide)))
  have hDefn : hasSub (indent ++ substitute t fn.definition ++ ";")
      t.example_implementor = false :=
    hasSub_append_false
      (hasSub_append_false hindK hdef (no_span_left hal hindLast))
      (no_occ_of_no_digit hd hdig (by decide))
      (no_span_right hal (head_cond ";".data ';' rfl (by decide)))
  have hE : hasSub "" t.example_implementor = false := hasSub_empty hne
  have hMuInner : hasSub (indent ++ "#[must_use = \"") t.example_implementor = false :=
    hasSub_append_false hindK
      (no_occ_of_no_digit hd hdig (by decide))
      (no_span_right hal (head_cond "#[must_use = \"".data '#' rfl (by decide)))
  have hMuLast : (indent ++ "#[must_use = \"").data.getLast? = some '\"' := by
    rw [String.data_append]
    rw [getLast?_of_exists_append "#[must_use = \"".data _ indent.data (by decide) rfl]
    decide
  have hMu : ∀ r, fn.must_use_reason = some r →
      hasSub (indent ++ "#[must_use = \"" ++ r ++ "\"]") t.example_implementor = false := by
    intro r hr
    exact hasSub_append_false
      (hasSub_append_false hMuInner (hmu r hr)
        (no_span_left hal
          (last_cond (indent ++ "#[must_use = \"").data '\"' hMuLast (by decide))))
      (no_occ_of_no_digit hd hdig (by decide))
      (no_span_right hal (head_cond "\"]".data '\"' rfl (by decide)))
  have K : ∀ x : String, hasSub x t.example_implementor = false →
      hasSub x t.example_implementor = true → False :=
    fun x hf ht => Bool.noConfusion (hf.symm.trans ht)
  intro l hl hocc
  unfold renderFn at hl
  split at hl
  · simp at hl
  · rcases hr : fn.must_use_reason with _ | r <;> rw [hr] at hl <;>
      cases hu : fn.isUnsafe <;> rw [hu] at hl <;> cases isStd <;>
      simp only [ite_true, ite_false, Bool.false_eq_true, if_false, List.nil_append,
        List.append_nil, List.mem_append, List.mem_cons, List.not_mem_nil, or_false,
        false_or, or_assoc, List.mem_singleton] at hl
    all_goals
      repeat
        rcases hl with rfl | hl <;>
          first
          | rfl
          | exact (K _ hcfg hocc).elim
          | exact (K _ hSlash hocc).elim
          | exact (K _ hSafety hocc).elim
          | exact (K _ hDefn hocc).elim
          | exact (K _ hE hocc).elim
          | exact (K _ (hMu r hr) hocc).elim
          | skip

lemma substCleanB_unpack {t : Trait} (h : substCleanB t = true) :
    ∀ fn : FunctionSpec, fn ∈ t.core_fns ∨ fn ∈ t.std_fns →
      hasSub (substitute t fn.definition) t.example_implementor = false
      ∧ hasSub (substitute t fn.call) t.example_implementor = false
      ∧ (∀ r, fn.must_use_reason = some r → hasSub r t.example_implementor = false) := by
  simp only [substCleanB, List.all_eq_true, List.mem_append, Bool.and_eq_true,
    Bool.not_eq_true'] at h
  intro fn hmem
  obtain ⟨⟨h1, h2⟩, h3⟩ := h fn hmem
  refine ⟨h1, h2, ?_⟩
  intro r hr
  rw [hr] at h3
  simpa using h3

lemma printDecl_impl_no_example {indent : String} {t : Trait}
    (hname : exNameOK t = true) (hclean : substCleanB t = true)
    (hind : ∀ c ∈ indent.data, isSpaceCh c = true) :
    ∀ l ∈ printDecl indent t true, hasSub l t.example_implementor = false := by
  obtain ⟨hne, hal, d, hd, hdig⟩ := exNameOK_unpack hname
  have hindK : hasSub indent t.example_implementor = false :=
    no_occ_of_no_digit hd hdig (fun c hc => isSpaceCh_not_digit (hind c hc))
  have hc := substCleanB_unpack hclean
  intro l hl
  unfold printDecl at hl
  simp only [List.mem_append, List.mem_cons, List.not_mem_nil, or_false,
    List.mem_flatMap] at hl
  rcases hl with ((rfl | rfl) | ⟨fn, hmem, hlin⟩) | ⟨fn, hmem, hlin⟩
  · exact hasSub_append_false hindK (no_occ_of_no_digit hd hdig (by decide))
      (no_span_right hal
        (head_cond "// Generated by generate_delegates.py".data '/' rfl (by decide)))
  · exact hasSub_empty hne
  · obtain ⟨h1, h2, _⟩ := hc fn (Or.inl hmem)
    exact renderFn_impl_no_example hname hind h1 h2 l hlin
  · obtain ⟨h1, h2, _⟩ := hc fn (Or.inr (List.mem_filter.mp hmem).1)
    exact renderFn_impl_no_example hname hind h1 h2 l hlin

lemma printDecl_decl_example_only_docs {indent : String} {t : Trait}
    (hname : exNameOK t = true) (hclean : substCleanB t = true)
    (hind : ∀ c ∈ indent.data, isSpaceCh c = true) :
    ∀ l ∈ printDecl indent t false, hasSub l t.example_implementor = true →
      ∃ fn, (fn ∈ t.core_fns ∨ fn ∈ t.std_fns) ∧
        l = indent ++ "/// See "
          ++ ("[`" ++ t.example_implementor ++ "::" ++ fn.name ++ "`]") ++ "." := by
  obtain ⟨hne, hal, d, hd, hdig⟩ := exNameOK_unpack hname
  have hindK : hasSub indent t.example_implementor = false :=
    no_occ_of_no_digit hd hdig (fun c hc => isSpaceCh_not_digit (hind c hc))
  have hc := substCleanB_unpack hclean
  intro l hl hocc
  unfold printDecl at hl
  simp only [List.mem_append, List.mem_cons, List.not_mem_nil, or_false,
    List.mem_flatMap] at hl
  rcases hl with ((rfl | rfl) | ⟨fn, hmem, hlin⟩) | ⟨fn, hmem, hlin⟩
  · have hh : hasSub (indent ++ "// Generated by generate_delegates.py")
        t.example_implementor = false :=
      hasSub_append_false hindK (no_occ_of_no_digit hd hdig (by decide))
        (no_span_right hal
          (head_cond "// Generated by generate_delegates.py".data '/' rfl (by decide)))
    exact absurd (hh.symm.trans hocc) Bool.false_ne_true
  · exact absurd ((hasSub_empty hne).symm.trans hocc) Bool.false_ne_true
  · obtain ⟨h1, _, h3⟩ := hc fn (Or.inl hmem)
    exact ⟨fn, Or.inl hmem,
      renderFn_decl_example_only_docs hname hind h1 h3 l hlin hocc⟩
  · have hstd := (List.mem_filter.mp hmem).1
    obtain ⟨h1, _, h3⟩ := hc fn (Or.inr hstd)
    exact ⟨fn, Or.inr hstd,
      renderFn_decl_example_only_docs hname hind h1 h3 l hlin hocc⟩

/-- C2 counterexample: rendering the FLOAT grouping (example type `f32`,
std catalog containing `floor`) in interface-declaration mode produces a
line containing the literal `f32` (the documentation reference line), so the
example type name does appear in rendered output, contrary to the claim. -/
theorem interface_output_contains_example_type :
    ((printDecl "" (FLOATtrait [] [floorSpec]) false).any
      (fun l => hasSub l "f32")) = true := by
  decide

/-- C2 amended: in interface mode the documentation line always references
the example type by its literal name, so every rendered non-excluded method
mentions it; outside those documentation lines the example type name never
appears: for every grouping and catalogs whose example name is a nonempty
alphanumeric identifier with a digit, whose substituted declaration and call
texts are free of the name, and at any whitespace indent, the
implementation-mode output contains no occurrence of the name, and any
interface-mode output line containing it is precisely a documentation
reference line of one of the catalog methods. -/
theorem example_type_in_docs_only :
    (∀ (indent : String) (t : Trait) (fn : FunctionSpec),
        t.ignores.contains fn.name = false →
        ∃ l ∈ renderFn indent t false false fn,
          hasSub l t.example_implementor = true)
    ∧ (∀ (indent : String) (t : Trait),
        exNameOK t = true → substCleanB t = true →
        (∀ c ∈ indent.data, isSpaceCh c = true) →
        ∀ l ∈ printDecl indent t true, hasSub l t.example_implementor = false)
    ∧ (∀ (indent : String) (t : Trait),
        exNameOK t = true → substCleanB t = true →
        (∀ c ∈ indent.data, isSpaceCh c = true) →
        ∀ l ∈ printDecl indent t false, hasSub l t.example_implementor = true →
          ∃ fn, (fn ∈ t.core_fns ∨ fn ∈ t.std_fns) ∧
            l = indent ++ "/// See "
              ++ ("[`" ++ t.example_implementor ++ "::" ++ fn.name ++ "`]") ++ ".")
    ∧ ((printDecl "" (FLOATtrait [] [floorSpec]) true).all
        (fun l => !(hasSub l "f32"))) = true := by
  refine ⟨?_, fun indent t h1 h2 h3 => printDecl_impl_no_example h1 h2 h3,
    fun indent t h1 h2 h3 => printDecl_decl_example_only_docs h1 h2 h3, by decide⟩
  intro indent t fn h
  refine ⟨indent ++ "/// See "
      ++ ("[`" ++ t.example_implementor ++ "::" ++ fn.name ++ "`]") ++ ".", ?_, ?_⟩
  · unfold renderFn
    rw [h]
    simp only [Bool.false_eq_true, ite_false, if_false]
    apply List.mem_append_left
    apply List.mem_append_left
    apply List.mem_append_left
    exact List.mem_append_left _ (List.mem_cons_self ..)
  · have e2 : indent ++ "/// See "
        ++ ("[`" ++ t.example_implementor ++ "::" ++ fn.name ++ "`]") ++ "."
        = (indent ++ "/// See " ++ "[`") ++ t.example_implementor
          ++ ("::" ++ fn.name ++ "`]" ++ ".") := by
      simp only [String.append_assoc]
    rw [e2]
    exact hasSub_middle _ _ _

lemma scanAttrs_all_other_skip :
    ∀ (attrs : List Attr) (s : String),
    (∀ a ∈ attrs, ∃ str, a = Attr.otherAttr str) →
    Attr.otherAttr s ∈ attrs →
    strStartsWith s "#[attr = Stability" = true →
    (hasSub s "Unstable" = true ∨ hasSub s "since: Current" = true) →
    ∀ acc, scanAttrs attrs acc = some ScanRes.skip := by
  intro attrs
  induction attrs with
  | nil =>
    intro s _ hmem
    simp at hmem
  | cons a rest ih =>
    intro s hall hmem hst hun acc
    obtain ⟨str, rfl⟩ := hall a (List.mem_cons_self ..)
    simp only [scanAttrs]
    by_cases h1 : strStartsWith str "#[attr = Stability" = true
    · rw [if_pos h1]
      by_cases h2 : (hasSub str "Unstable" || hasSub str "since: Current") = true
      · rw [if_pos h2]
      · rcases List.mem_cons.mp hmem with heq | hmem2
        · injection heq with he
          subst he
          rw [Bool.or_eq_true] at h2
          push_neg at h2
          rcases hun with hu | hu
          · exact absurd hu h2.1
          · exact absurd hu h2.2
        · rw [if_neg h2]
          exact ih s (fun x hx => hall x (List.mem_cons_of_mem _ hx)) hmem2 hst hun acc
    · rcases List.mem_cons.mp hmem with heq | hmem2
      · injection heq with he
        subst he
        exact absurd hst h1
      · rw [if_neg h1]
        exact ih s (fun x hx => hall x (List.mem_cons_of_mem _ hx)) hmem2 hst hun acc

/-- C5: `parse_fn` returns a skip (never a catalog entry) for a function
item with a generic type/const parameter or a where-clause predicate, for a
deprecated item, and for an item carrying a stability attribute string
containing `Unstable` or `since: Current`; the Scenario B item
`unsafe fn to_int_unchecked<Int>(self) -> Int` is skipped; and a skipped
item contributes nothing to the collected catalog. -/
theorem parse_fn_skip_rules :
    (∀ (d : Item) (spec : FnDecl), d.inner = ItemInner.function spec →
        (spec.generics.params ≠ [] ∨ spec.generics.where_predicates ≠ []) →
        parse_fn d = some none)
    ∧ (∀ (d : Item) (spec : FnDecl), d.inner = ItemInner.function spec →
        d.deprecation.isSome = true → parse_fn d = some none)
    ∧ (∀ (d : Item) (spec : FnDecl) (s : String), d.inner = ItemInner.function spec →
        (∀ a ∈ d.attrs, ∃ str, a = Attr.otherAttr str) →
        Attr.otherAttr s ∈ d.attrs →
        strStartsWith s "#[attr = Stability" = true →
        (hasSub s "Unstable" = true ∨ hasSub s "since: Current" = true) →
        parse_fn d = some none)
    ∧ parse_fn scenarioBItem = some none
    ∧ (∀ (d : Item) (ds1 ds2 : List Item), parse_fn d = some none →
        collectFns (ds1 ++ d :: ds2) = collectFns (ds1 ++ ds2)) := by
  refine ⟨?_, ?_, ?_, by decide, ?_⟩
  · intro d spec hinner hgen
    unfold parse_fn
    rw [hinner]
    dsimp only
    rw [if_pos hgen]
  · intro d spec hinner hdep
    unfold parse_fn
    rw [hinner]
    dsimp only
    by_cases hgen : spec.generics.params ≠ [] ∨ spec.generics.where_predicates ≠ []
    · rw [if_pos hgen]
    · rw [if_neg hgen, if_pos hdep]
  · intro d spec s hinner hall hmem hst hun
    unfold parse_fn
    rw [hinner]
    dsimp only
    by_cases hgen : spec.generics.params ≠ [] ∨ spec.generics.where_predicates ≠ []
    · rw [if_pos hgen]
    · rw [if_neg hgen]
      cases hdep : d.deprecation.isSome with
      | true => simp
      | false =>
        simp only [Bool.false_eq_true, ite_false, if_false]
        rw [scanAttrs_all_other_skip d.attrs s hall hmem hst hun none]
  · intro d ds1 ds2 h
    induction ds1 with
    | nil =>
      simp only [List.nil_append, collectFns, h]
    | cons x rest ih =>
      simp only [List.cons_append, collectFns, List.append_eq]
      rw [ih]


/-- C8: each renderer contract violation is a fatal abort (`none`, the model
of a failed assertion, so no output is committed): an unrecognised type-tree
tag, a reference node with a present lifetime, a self parameter rendering to
neither `Self` nor `&Self`, and a second must-use attribute with a reason on
the same item. -/
theorem renderer_contract_violations_abort :
    stringify_type (Typ.unknownTag "weird") = none
    ∧ stringify_type (Typ.borrowed_ref (some "a") false (Typ.primitive "i32")) = none
    ∧ stringify_arg "self" "&mut Self" = none
    ∧ parse_fn dupMustUseItem = none := by
  refine ⟨rfl, rfl, by decide, by decide⟩

/-- Witness for C1 at a concrete registry and input. -/
theorem splice_commit_is_atomic_witness :
    ∃ tj tk, tempAfter wReg wInput 1 = some tj ∧ tempAfter wReg wInput 4 = some tk
      ∧ tj <+: tk :=
  ⟨_, _, rfl, rfl,
    (splice_commit_is_atomic wReg wInput).2.2.1 1 4 (by omega) _ _ rfl rfl⟩

/-- Witness for the amended C2 at the concrete FLOAT grouping: its doc line
mentions `f32`, and its full implementation-mode output is `f32`-free. -/
theorem example_type_in_docs_only_witness :
    (∃ l ∈ renderFn "" (FLOATtrait [] [floorSpec]) false false floorSpec,
      hasSub l "f32" = true)
    ∧ (∀ l ∈ printDecl "" (FLOATtrait [] [floorSpec]) true, hasSub l "f32" = false) :=
  ⟨example_type_in_docs_only.1 "" (FLOATtrait [] [floorSpec]) floorSpec (by decide),
   example_type_in_docs_only.2.1 "" (FLOATtrait [] [floorSpec]) (by decide) (by decide)
     (fun c hc => absurd hc (List.not_mem_nil c))⟩

/-- Witness for C4 at a concrete target file. -/
theorem splice_replaces_float_region_witness :
    splice wReg (["a"] ++ ["// @START@ IMPL FLOAT"] ++ ["old"] ++ ["// @END@"] ++ ["b"])
      = some (["a"] ++ ["// @START@ IMPL FLOAT"]
          ++ printDecl "" (FLOATtrait [] [floorSpec]) true ++ ["// @END@"] ++ ["b"]) :=
  splice_replaces_float_region [] [] [] [floorSpec] ["a"] ["old"] ["b"]
    (by decide) (by decide) (by decide)

/-- Witness for C5 at the Scenario B item. -/
theorem parse_fn_skip_rules_witness :
    parse_fn scenarioBItem = some none :=
  parse_fn_skip_rules.1 scenarioBItem
    ⟨⟨["Int"], []⟩, ⟨true⟩, ⟨[("self", Typ.generic "Self")], Typ.generic "Int"⟩⟩
    rfl (Or.inl (by decide))

/-- Witness for C6 at the Scenario C grouping (core catalog) and at the
FLOAT grouping with the excluded std-catalog method `div_euclid`. -/
theorem ignored_method_renders_nothing_witness :
    (printDecl "" (withCore scenCTrait ([] ++ minValueSpec :: [])) false
      = printDecl "" (withCore scenCTrait ([] ++ [])) false)
    ∧ (printDecl "" (withStd (FLOATtrait [] []) ([] ++ divEuclidSpec :: [])) true
      = printDecl "" (withStd (FLOATtrait [] []) ([] ++ [])) true) :=
  ⟨ignored_method_renders_nothing.1 "" scenCTrait false [] [] minValueSpec (by decide),
   ignored_method_renders_nothing.2.1 "" (FLOATtrait [] []) true [] [] divEuclidSpec
     (by decide)⟩

/-- Witness for C7 at a concrete block-structured file. -/
theorem splice_idempotent_witness :
    splice wReg (flattenBlocks wBlocks) = some (wBlocks.flatMap (blockOut wReg))
    ∧ splice wReg (wBlocks.flatMap (blockOut wReg))
        = some (wBlocks.flatMap (blockOut wReg))
    ∧ (∀ (t : Trait) (indent : String) (impl : Bool),
        cleanTrait t = true → noAt indent = true →
        ∀ l ∈ printDecl indent t impl, noMarkers l) :=
  splice_idempotent wReg wBlocks
    (by
      intro b hb
      fin_cases hb
      · exact (by decide : noMarkers "a")
      · exact ⟨by decide, by decide,
          ⟨"", "IMPL", "FLOAT", FLOATtrait [] [floorSpec], by decide, rfl, by decide⟩,
          by decide, by decide, by decide⟩
      · exact (by decide : noMarkers "b"))

/-- Witness for C9 at a concrete unterminated target file. -/
theorem splice_unterminated_region_witness :
    splice wReg (["a"] ++ ["// @START@ IMPL FLOAT"] ++ ["x", "y"])
      = some (["a"] ++ ["// @START@ IMPL FLOAT"]
          ++ printDecl "" (FLOATtrait [] [floorSpec]) true)
    ∧ (spliceRun wReg (["a"] ++ ["// @START@ IMPL FLOAT"] ++ ["x", "y"])).getLast?
        = some (FS.mk
            (["a"] ++ ["// @START@ IMPL FLOAT"]
              ++ printDecl "" (FLOATtrait [] [floorSpec]) true)
            (some (["a"] ++ ["// @START@ IMPL FLOAT"]
              ++ printDecl "" (FLOATtrait [] [floorSpec]) true))) :=
  splice_unterminated_region [] [] [] [floorSpec] ["a"] ["x", "y"]
    (by decide) (by decide)

/-- Witness for C10 at concrete catalogs sharing a name list. -/
theorem derived_catalogs_preserve_records_witness :
    int_core [floorSpec] [minValueSpec] = int_core [floorSpec] [minValueSpecAlt]
    ∧ signed_core [floorSpec] [minValueSpec]
        = signed_core [floorSpec] [minValueSpecAlt] :=
  (derived_catalogs_preserve_records [floorSpec] [minValueSpec]
    [minValueSpecAlt]).2.2.2.2.2.2 (by decide)
